import Mathlib

/-!
Shallow embedding of the pmd_pkdpx PX codec (src/lib.rs).

Bytes are modelled as `Nat` values reduced modulo 256 at every point where
the source's `u8` arithmetic wraps (release semantics of Rust integer
overflow).  Streams are `List Nat` with an explicit read position.
Fallible operations return `POut`, which mirrors `Result<_, PXError>`
extended with a `panic` outcome for the places where the source can abort
(the `result[c as usize]` indexing in the back-reference copy, the
`get_bit(..).unwrap()`, and the unreachable dispatch arm).
-/

/-- Error type of the library, mirroring `enum PXError`.  The payloads are
reduced to the data the claims need (magic bytes, offending length). -/
inductive PXError where
  | IOError : PXError
  | InvalidHeaderMagic : List Nat → PXError
  | InvalidDecompressedLength : PXError
  | FileToCompressTooLong : Nat → PXError
deriving DecidableEq, Repr

/-- Outcome of a fallible operation: success, a typed `PXError`, or a Rust
panic (out-of-bounds indexing / `unwrap` / unreachable arm). -/
inductive POut (α : Type) where
  | ok : α → POut α
  | err : PXError → POut α
  | panic : POut α
deriving DecidableEq, Repr

/-- `get_bit(byte, id)`: `(byte >> (7 - id) << 7) >= 1` in `u8` arithmetic,
`None` for `id ≥ 8`.  Bit 0 is the most significant bit.  (`≥ 1` on an
unsigned value is `≠ 0`.) -/
def get_bit (byte : Nat) (id : Nat) : Option Bool :=
  if id < 8 then some ((((byte >>> (7 - id)) <<< 7) % 256) != 0) else none

/-- The 9-entry control-flag table (`struct ControlFlags`). -/
structure ControlFlags where
  value : List Nat
deriving DecidableEq, Repr

/-- Linear first-match scan used by `ControlFlags::find`. -/
def findAux : List Nat → Nat → Option Nat
  | [], _ => none
  | v :: rest, nb_high =>
    if v = nb_high then some 0 else (findAux rest nb_high).map (· + 1)

/-- `ControlFlags::find`: index of the first table entry equal to `nb_high`. -/
def ControlFlags.find (self : ControlFlags) (nb_high : Nat) : Option Nat :=
  findAux self.value nb_high

/-- `px_read_u8`: one byte from the stream at `pos`; EOF is an `IOError`. -/
def px_read_u8 (l : List Nat) (pos : Nat) : POut (Nat × Nat) :=
  match l[pos]? with
  | some b => .ok (b % 256, pos + 1)
  | none => .err .IOError

/-- `px_read_u16`: little-endian `u16` at a fixed offset. -/
def px_read_u16 (l : List Nat) (pos : Nat) : POut Nat :=
  if pos + 2 ≤ l.length then
    .ok (l.getD pos 0 % 256 + 256 * (l.getD (pos + 1) 0 % 256))
  else .err .IOError

/-- `px_read_u32`: little-endian `u32` at a fixed offset. -/
def px_read_u32 (l : List Nat) (pos : Nat) : POut Nat :=
  if pos + 4 ≤ l.length then
    .ok (l.getD pos 0 % 256 + 256 * (l.getD (pos + 1) 0 % 256)
      + 65536 * (l.getD (pos + 2) 0 % 256) + 16777216 * (l.getD (pos + 3) 0 % 256))
  else .err .IOError

/-- Nybble-pattern byte-pair synthesis (the `Some(ctrlflagindex)` arm of the
decode loop, lines 153-179 of the source).  `u8` wrap: `x + 1` is
`(x+1) % 256`, `x - 1` is `(x+255) % 256`.  An index outside 0..8 hits the
source's unreachable arm and panics. -/
def byte_to_add (ctrlflagindex : Nat) (nb_low : Nat) : POut (Nat × Nat) :=
  if ctrlflagindex = 0 then
    let byte1 := ((nb_low <<< 4) + nb_low) % 256
    .ok (byte1, byte1)
  else if ctrlflagindex ≤ 8 then
    let nybbleval :=
      if ctrlflagindex = 1 then (nb_low + 1) % 256
      else if ctrlflagindex = 5 then (nb_low + 255) % 256
      else nb_low
    let n0 := if ctrlflagindex = 1 then (nybbleval + 255) % 256
      else if ctrlflagindex = 5 then (nybbleval + 1) % 256 else nybbleval
    let n1 := if ctrlflagindex = 2 then (nybbleval + 255) % 256
      else if ctrlflagindex = 6 then (nybbleval + 1) % 256 else nybbleval
    let n2 := if ctrlflagindex = 3 then (nybbleval + 255) % 256
      else if ctrlflagindex = 7 then (nybbleval + 1) % 256 else nybbleval
    let n3 := if ctrlflagindex = 4 then (nybbleval + 255) % 256
      else if ctrlflagindex = 8 then (nybbleval + 1) % 256 else nybbleval
    .ok (((n0 <<< 4) + n1) % 256, ((n2 <<< 4) + n3) % 256)
  else .panic

/-- The back-reference copy loop
`for c in offset..(offset + lenght) { result.push(result[c as usize]) }`.
A negative `c` casts to a huge `usize`, and any out-of-range index makes
`result[..]` panic.  The buffer grows while it is being read, so a byte
written earlier in the same run can be read later in the run. -/
def copy_from_past : List Nat → Int → Nat → POut (List Nat)
  | result, _, 0 => .ok result
  | result, offset, k + 1 =>
    if offset < 0 then .panic
    else
      match result[offset.toNat]? with
      | some c => copy_from_past (result ++ [c]) (offset + 1) k
      | none => .panic

/-- The `Some(ctrlflagindex)` arm of the dispatch: synthesize the byte pair
and append both bytes. -/
def px_pattern (ctrlflagindex nb_low pos1 : Nat) (result : List Nat) :
    POut (Nat × List Nat) :=
  match byte_to_add ctrlflagindex nb_low with
  | .ok p => .ok (pos1, result ++ [p.1, p.2])
  | .err e => .err e
  | .panic => .panic

/-- The `None` arm of the dispatch (LZ back-reference): read one more byte,
compute `offset_rel = -0x1000 + nb_low*256 + new_byte`, the absolute source
index `offset = offset_rel + result.len()`, the copy length `nb_high + 3`,
and run the copy loop. -/
def px_backref (payload : List Nat) (nb_high nb_low pos1 : Nat) (result : List Nat) :
    POut (Nat × List Nat) :=
  match px_read_u8 payload pos1 with
  | .err e => .err e
  | .panic => .panic
  | .ok (new_byte, pos2) =>
    let offset_rel : Int := -4096 + ((nb_low * 256 + new_byte : Nat) : Int)
    let offset : Int := offset_rel + (result.length : Int)
    let lenght := nb_high + 3
    match copy_from_past result offset lenght with
    | .ok r => .ok (pos2, r)
    | .err e => .err e
    | .panic => .panic

/-- One bit of the decode loop body: read a byte; a 1-bit pushes it as a
literal, a 0-bit dispatches on the control-flag table (nybble pattern when
found, back-reference copy when not). -/
def px_step (control_flags : ControlFlags) (payload : List Nat) (this_bit : Bool)
    (pos : Nat) (result : List Nat) : POut (Nat × List Nat) :=
  match px_read_u8 payload pos with
  | .err e => .err e
  | .panic => .panic
  | .ok (this_byte, pos1) =>
    if this_bit then .ok (pos1, result ++ [this_byte])
    else
      let nb_high := this_byte >>> 4
      let nb_low := this_byte % 16
      match control_flags.find nb_high with
      | some ctrlflagindex => px_pattern ctrlflagindex nb_low pos1 result
      | none => px_backref payload nb_high nb_low pos1 result

/-- The eight bit indices of one command byte, processed in order. -/
def bits8 : List Nat := [0, 1, 2, 3, 4, 5, 6, 7]

/-- The inner `while bit_num < 8` loop: process the listed bits of
`byte_info`; after every bit, stop with `true` as soon as the output length
reaches `decompressed_lenght` (the `break 'main`). -/
def px_bits (control_flags : ControlFlags) (payload : List Nat)
    (byte_info decompressed_lenght : Nat) :
    List Nat → Nat → List Nat → POut (Bool × Nat × List Nat)
  | [], pos, result => .ok (false, pos, result)
  | bit_num :: rest, pos, result =>
    match get_bit byte_info bit_num with
    | none => .panic
    | some this_bit =>
      match px_step control_flags payload this_bit pos result with
      | .err e => .err e
      | .panic => .panic
      | .ok (pos', result') =>
        if decompressed_lenght ≤ result'.length then .ok (true, pos', result')
        else px_bits control_flags payload byte_info decompressed_lenght rest pos' result'

/-- The outer `loop`: read a command byte, process its 8 bits, repeat.
`fuel` bounds the number of command bytes; every iteration consumes at
least 9 stream bytes, so `payload.length + 1` (used by
`decompress_px_raw`) can never run out before the stream does — the
fuel-exhaustion branch coincides with the EOF error the next read would
produce. -/
def px_loop (control_flags : ControlFlags) (payload : List Nat)
    (decompressed_lenght : Nat) : Nat → Nat → List Nat → POut (Nat × List Nat)
  | 0, _, _ => .err .IOError
  | fuel + 1, pos, result =>
    match px_read_u8 payload pos with
    | .err e => .err e
    | .panic => .panic
    | .ok (byte_info, pos1) =>
      match px_bits control_flags payload byte_info decompressed_lenght bits8 pos1 result with
      | .err e => .err e
      | .panic => .panic
      | .ok (true, pos', result') => .ok (pos', result')
      | .ok (false, pos', result') =>
        px_loop control_flags payload decompressed_lenght fuel pos' result'

/-- `decompress_px_raw`: run the decode loop from the start of the payload
(the stream is the bounded window that begins at the first command byte),
then check total consumption: `container_lenght` must equal the final
stream position plus `header_lenght`. -/
def decompress_px_raw (payload : List Nat) (control_flags : ControlFlags)
    (decompressed_lenght container_lenght header_lenght : Nat) : POut (List Nat) :=
  match px_loop control_flags payload decompressed_lenght (payload.length + 1) 0 [] with
  | .err e => .err e
  | .panic => .panic
  | .ok (pos, result) =>
    if container_lenght ≠ pos + header_lenght then .err .InvalidDecompressedLength
    else .ok result

/-- The 5 magic bytes `b"PKDPX"`. -/
def pkdpxMagic : List Nat := [80, 75, 68, 80, 88]

/-- The 5 magic bytes `b"AT4PX"`. -/
def at4pxMagic : List Nat := [65, 84, 52, 80, 88]

/-- `decompress_px`: read the 5 magic bytes, the `u16` container length at
offset 5 and the 9 control flags at offsets 7..15, then dispatch on the
magic: PKDPX reads a `u32` decompressed length (20-byte header), AT4PX a
`u16` (18-byte header); any other magic is `InvalidHeaderMagic`. -/
def decompress_px (file : List Nat) : POut (List Nat) :=
  if file.length < 5 then .err .IOError
  else
    let header_5 := (file.take 5).map (· % 256)
    match px_read_u16 file 5 with
    | .err e => .err e
    | .panic => .panic
    | .ok container_lenght =>
      if file.length < 16 then .err .IOError
      else
        let control_flags : ControlFlags := ⟨((file.drop 7).take 9).map (· % 256)⟩
        if header_5 = pkdpxMagic then
          match px_read_u32 file 16 with
          | .err e => .err e
          | .panic => .panic
          | .ok decompressed_lenght =>
            decompress_px_raw (file.drop 20) control_flags decompressed_lenght
              container_lenght 20
        else if header_5 = at4pxMagic then
          match px_read_u16 file 16 with
          | .err e => .err e
          | .panic => .panic
          | .ok decompressed_lenght =>
            decompress_px_raw (file.drop 18) control_flags decompressed_lenght
              container_lenght 18
        else .err (.InvalidHeaderMagic header_5)

/-- `is_px`: `false` for streams shorter than 4 bytes, otherwise read 5
bytes (EOF is an `IOError`) and compare against the two magics. -/
def is_px (file : List Nat) : POut Bool :=
  if file.length < 4 then .ok false
  else if file.length < 5 then .err .IOError
  else if (file.take 5).map (· % 256) = pkdpxMagic then .ok true
  else if (file.take 5).map (· % 256) = at4pxMagic then .ok true
  else .ok false

/-- Little-endian bytes of a `u16` value (`u16::to_le_bytes`). -/
def u16le (n : Nat) : List Nat := [n % 256, n / 256 % 256]

/-- Little-endian bytes of a `u32` value (`u32::to_le_bytes`, the source
casts the `u64` size with `as u32`, i.e. modulo 2^32). -/
def u32le (n : Nat) : List Nat :=
  [n % 256, n / 256 % 256, n / 65536 % 256, n / 16777216 % 256]

/-- The encoder loop of `naive_compression`: before the first byte and
every 8th byte thereafter push a `0xFF` command byte, then copy one input
byte; stop when the input is exhausted (checked after each copied byte).
On empty remaining input the read fails with an `IOError`. -/
def naive_loop : Nat → List Nat → List Nat → POut (List Nat)
  | loop_nb, remaining, acc =>
    let acc1 := if loop_nb % 8 = 0 then acc ++ [255] else acc
    match remaining with
    | [] => .err .IOError
    | b :: rest =>
      let acc2 := acc1 ++ [b % 256]
      if rest = [] then .ok acc2
      else naive_loop (loop_nb + 1) rest acc2

/-- Bytes of a list reduced modulo 256 (the `u8` view of arbitrary data). -/
def bytesOf (l : List Nat) : List Nat := l.map (· % 256)

/-- Characterization of the encoder payload: the bytes `naive_loop` appends
for the remaining input, starting at iteration counter `loop_nb` — a `0xFF`
command byte before every iteration whose counter is a multiple of 8,
followed by the input byte. -/
def interleave : Nat → List Nat → List Nat
  | _, [] => []
  | loop_nb, b :: rest =>
    (if loop_nb % 8 = 0 then [255] else []) ++ b % 256 :: interleave (loop_nb + 1) rest

/-- The nybble-pattern byte pair exactly as the specification phrases it
(spec §4.2 and claim C6): for index 0 both bytes are `nb_low<<4 | nb_low`;
otherwise four copies of `nb_low` pre-incremented once for index 1 and
pre-decremented once for index 5 (byte arithmetic), one per-position
adjustment, and the output pair `(n0<<4 | n1, n2<<4 | n3)` combined with
bitwise or.  Written only to compare against `byte_to_add`. -/
def spec_nybble_pair (i : Nat) (nb_low : Nat) : Nat × Nat :=
  if i = 0 then
    (Nat.lor (nb_low <<< 4) nb_low, Nat.lor (nb_low <<< 4) nb_low)
  else
    let base := if i = 1 then (nb_low + 1) % 256
      else if i = 5 then (nb_low + 255) % 256 else nb_low
    let n0 := if i = 1 then (base + 255) % 256
      else if i = 5 then (base + 1) % 256 else base
    let n1 := if i = 2 then (base + 255) % 256
      else if i = 6 then (base + 1) % 256 else base
    let n2 := if i = 3 then (base + 255) % 256
      else if i = 7 then (base + 1) % 256 else base
    let n3 := if i = 4 then (base + 255) % 256
      else if i = 8 then (base + 1) % 256 else base
    (Nat.lor (n0 <<< 4) n1, Nat.lor (n2 <<< 4) n3)

/-- `naive_compression`: PKDPX header with zero container length, all-zero
control flags and the true decompressed length, the all-literal payload,
`0xAA` padding to a multiple of 16, then the pre-padding length is checked
against `u16::MAX` and patched into bytes 5 and 6. -/
def naive_compression (file : List Nat) : POut (List Nat) :=
  let decompressed_size := file.length
  let header := pkdpxMagic ++ u16le 0 ++ List.replicate 9 0 ++ u32le decompressed_size
  match naive_loop 0 file header with
  | .err e => .err e
  | .panic => .panic
  | .ok raw =>
    let container_lenght := raw.length
    let padded := raw ++ List.replicate ((16 - raw.length % 16) % 16) 170
    if container_lenght > 65535 then .err (.FileToCompressTooLong container_lenght)
    else .ok ((padded.set 5 (container_lenght % 256)).set 6 (container_lenght / 256 % 256))

/-! ## Basic lemmas -/

theorem map_mod_eq_self {l : List Nat} (h : ∀ b ∈ l, b < 256) : bytesOf l = l := by
  unfold bytesOf
  induction l with
  | nil => rfl
  | cons a t ih =>
    simp only [List.map_cons, List.cons.injEq]
    exact ⟨Nat.mod_eq_of_lt (h a (by simp)), ih fun b hb => h b (by simp [hb])⟩

theorem px_read_u8_ok {l : List Nat} {pos b pos' : Nat}
    (h : px_read_u8 l pos = .ok (b, pos')) :
    pos < l.length ∧ b = l.getD pos 0 % 256 ∧ pos' = pos + 1 ∧ b < 256 := by
  unfold px_read_u8 at h
  cases hg : l[pos]? with
  | none => rw [hg] at h; exact absurd h (by simp)
  | some v =>
    rw [hg] at h
    simp only [POut.ok.injEq, Prod.mk.injEq] at h
    have hv : l.getD pos 0 = v := by simp [List.getD, hg]
    have hlen : pos < l.length := by
      by_contra hn
      rw [List.getElem?_eq_none (by omega)] at hg
      exact absurd hg (by simp)
    exact ⟨hlen, by omega, by omega, by omega⟩

theorem px_read_u8_of_getElem {l : List Nat} {pos v : Nat} (h : l[pos]? = some v) :
    px_read_u8 l pos = .ok (v % 256, pos + 1) := by
  unfold px_read_u8; rw [h]

theorem findAux_lt_length {l : List Nat} {h i : Nat} (hf : findAux l h = some i) :
    i < l.length := by
  induction l generalizing i with
  | nil => exact absurd hf (by simp [findAux])
  | cons a t ih =>
    unfold findAux at hf
    by_cases ha : a = h
    · simp only [ha, if_pos rfl] at hf
      cases hf; simp
    · simp only [if_neg ha] at hf
      cases hg : findAux t h with
      | none => rw [hg] at hf; exact absurd hf (by simp)
      | some j =>
        rw [hg] at hf
        simp only [Option.map_some', Option.some.injEq] at hf
        have := ih hg
        simp; omega

theorem get_bit_lt {b i : Nat} (h : i < 8) : ∃ tb, get_bit b i = some tb :=
  ⟨_, by unfold get_bit; rw [if_pos h]⟩

theorem get_bit_255 {i : Nat} (h : i < 8) : get_bit 255 i = some true := by
  interval_cases i <;> decide

/-! ## Lemmas about the back-reference copy -/

theorem copy_from_past_length {len : Nat} :
    ∀ {r : List Nat} {off : Int} {r'}, copy_from_past r off len = .ok r' →
      r'.length = r.length + len := by
  induction len with
  | zero =>
    intro r off r' h
    unfold copy_from_past at h
    cases h; simp
  | succ k ih =>
    intro r off r' h
    unfold copy_from_past at h
    by_cases hneg : off < 0
    · rw [if_pos hneg] at h; exact absurd h (by simp)
    · rw [if_neg hneg] at h
      cases hg : r[off.toNat]? with
      | none => rw [hg] at h; exact absurd h (by simp)
      | some c =>
        rw [hg] at h
        have := ih h
        simp at this
        omega

theorem copy_from_past_neg {r : List Nat} {off : Int} {k : Nat} (hneg : off < 0) :
    copy_from_past r off (k + 1) = .panic := by
  unfold copy_from_past; rw [if_pos hneg]

/-- Successful copy: the original buffer is preserved as a prefix, the
length grows by `len`, and every appended byte equals the byte `len_r - src`
positions earlier in the final buffer (self-referential reads included). -/
theorem copy_from_past_ok {len : Nat} :
    ∀ {r : List Nat} {off : Int}, 0 ≤ off → off.toNat < r.length →
      ∃ r', copy_from_past r off len = .ok r' ∧
        r'.length = r.length + len ∧
        r'.take r.length = r ∧
        ∀ j, j < len → r'[off.toNat + j]? = r'[r.length + j]? := by
  induction len with
  | zero =>
    intro r off _ _
    exact ⟨r, by unfold copy_from_past; rfl, by simp, by simp, fun j hj => absurd hj (by omega)⟩
  | succ k ih =>
    intro r off hpos hlt
    obtain ⟨c, hc⟩ : ∃ c, r[off.toNat]? = some c :=
      ⟨r.get ⟨off.toNat, hlt⟩, List.getElem?_eq_getElem hlt⟩
    have hpos1 : (0 : Int) ≤ off + 1 := by omega
    have htoNat1 : (off + 1).toNat = off.toNat + 1 := by omega
    have hlt1 : (off + 1).toNat < (r ++ [c]).length := by
      simp [htoNat1]; omega
    obtain ⟨r', hcp, hlen, htake, hread⟩ := @ih (r ++ [c]) (off + 1) hpos1 hlt1
    refine ⟨r', ?_, by simp at hlen ⊢; omega, ?_, ?_⟩
    · unfold copy_from_past
      rw [if_neg (by omega), hc]
      exact hcp
    · have h1 : r'.take (r ++ [c]).length = r ++ [c] := htake
      have h2 : r.length ≤ (r ++ [c]).length := by simp
      calc r'.take r.length = ((r'.take (r ++ [c]).length).take r.length) := by
            rw [List.take_take, min_eq_left h2]
        _ = (r ++ [c]).take r.length := by rw [h1]
        _ = r := by simp
    · intro j hj
      have hpre : ∀ m, m < (r ++ [c]).length → r'[m]? = (r ++ [c])[m]? := by
        intro m hm
        rw [← htake, List.getElem?_take_of_lt hm]
      rcases Nat.eq_zero_or_pos j with hj0 | hjpos
      · subst hj0
        have hr1 : r'[off.toNat]? = some c := by
          rw [hpre off.toNat (by simp; omega), List.getElem?_append_left (by omega), hc]
        have hr2 : r'[r.length]? = some c := by
          rw [hpre r.length (by simp), List.getElem?_append_right (le_refl _)]
          simp
        simp [hr1, hr2]
      · obtain ⟨i, rfl⟩ : ∃ i, j = i + 1 := ⟨j - 1, by omega⟩
        have := hread i (by omega)
        rw [htoNat1] at this
        simpa [Nat.add_assoc, Nat.add_comm 1 i, Nat.add_left_comm] using this

/-! ## Lemmas about one decode-loop bit -/

theorem shiftRight4_le {b : Nat} (h : b < 256) : b >>> 4 ≤ 15 := by
  rw [Nat.shiftRight_eq_div_pow]
  omega

theorem copy_from_past_not_ok_of_neg {r r' : List Nat} {off : Int} {len : Nat}
    (hlen : 0 < len) (hneg : off < 0) : copy_from_past r off len ≠ .ok r' := by
  cases len with
  | zero => omega
  | succ k =>
    unfold copy_from_past
    rw [if_pos hneg]
    simp

theorem px_pattern_ok {i v pos1 : Nat} {result : List Nat} {pos' : Nat} {r' : List Nat}
    (h : px_pattern i v pos1 result = .ok (pos', r')) :
    pos' = pos1 ∧ r'.length = result.length + 2 := by
  unfold px_pattern at h
  split at h
  · simp only [POut.ok.injEq, Prod.mk.injEq] at h
    obtain ⟨h1, h2⟩ := h
    subst h1; subst h2
    simp
  · exact absurd h (by simp)
  · exact absurd h (by simp)

theorem px_backref_len {payload : List Nat} {nh nl pos1 : Nat} {result : List Nat}
    {pos' : Nat} {r' : List Nat}
    (h : px_backref payload nh nl pos1 result = .ok (pos', r')) :
    pos' = pos1 + 1 ∧ r'.length = result.length + (nh + 3) := by
  unfold px_backref at h
  split at h
  · exact absurd h (by simp)
  · exact absurd h (by simp)
  · rename_i v2 new_byte pos2 hr2
    obtain ⟨-, -, hpos2, -⟩ := px_read_u8_ok hr2
    dsimp only at h
    split at h
    · rename_i r2 hcp
      simp only [POut.ok.injEq, Prod.mk.injEq] at h
      obtain ⟨h1, h2⟩ := h
      subst h1; subst h2
      exact ⟨hpos2, copy_from_past_length hcp⟩
    · exact absurd h (by simp)
    · exact absurd h (by simp)

theorem px_backref_empty {payload : List Nat} {nh nl pos1 : Nat}
    {pos' : Nat} {r' : List Nat} (hnl : nl ≤ 15)
    (h : px_backref payload nh nl pos1 [] = .ok (pos', r')) : False := by
  unfold px_backref at h
  split at h
  · exact absurd h (by simp)
  · exact absurd h (by simp)
  · rename_i v2 new_byte pos2 hr2
    obtain ⟨-, -, -, hnbv⟩ := px_read_u8_ok hr2
    dsimp only at h
    split at h
    · rename_i r2 hcp
      have hoff : (-4096 + ((nl * 256 + new_byte : Nat) : Int)
          + (([] : List Nat).length : Int)) < 0 := by
        have h2 : (nl * 256 + new_byte : Nat) ≤ 4095 := by omega
        simp
        omega
      exact copy_from_past_not_ok_of_neg (by omega) hoff hcp
    · exact absurd h (by simp)
    · exact absurd h (by simp)

theorem px_step_ok {flags : ControlFlags} {payload : List Nat} {tb : Bool}
    {pos : Nat} {result : List Nat} {pos' : Nat} {r' : List Nat}
    (h : px_step flags payload tb pos result = .ok (pos', r')) :
    (pos + 1 ≤ pos' ∧ pos' ≤ pos + 2) ∧
    (result.length + 1 ≤ r'.length ∧ r'.length ≤ result.length + 18) := by
  unfold px_step at h
  split at h
  · exact absurd h (by simp)
  · exact absurd h (by simp)
  · rename_i v this_byte pos1 hr
    obtain ⟨-, -, hpos1, hb⟩ := px_read_u8_ok hr
    subst hpos1
    split at h
    · simp only [POut.ok.injEq, Prod.mk.injEq] at h
      obtain ⟨h1, h2⟩ := h
      subst h1; subst h2
      simp only [List.length_append, List.length_cons, List.length_nil]
      omega
    · dsimp only at h
      split at h
      · obtain ⟨h1, h2⟩ := px_pattern_ok h
        omega
      · obtain ⟨h1, h2⟩ := px_backref_len h
        have hnb := shiftRight4_le hb
        omega

theorem px_step_empty {flags : ControlFlags} {payload : List Nat} {tb : Bool}
    {pos : Nat} {pos' : Nat} {r' : List Nat}
    (h : px_step flags payload tb pos [] = .ok (pos', r')) : r'.length ≤ 2 := by
  unfold px_step at h
  split at h
  · exact absurd h (by simp)
  · exact absurd h (by simp)
  · rename_i v this_byte pos1 hr
    split at h
    · simp only [POut.ok.injEq, Prod.mk.injEq] at h
      obtain ⟨-, h2⟩ := h
      subst h2; simp
    · dsimp only at h
      split at h
      · obtain ⟨-, h2⟩ := px_pattern_ok h
        simp at h2
        omega
      · exact absurd h (fun hh => px_backref_empty (by omega) hh)

/-! ## Length bounds of the decode loop -/

theorem px_bits_bound {flags : ControlFlags} {payload : List Nat} {byte_info dl : Nat} :
    ∀ {bits : List Nat} {pos : Nat} {acc : List Nat} {done : Bool} {pos' : Nat}
      {r' : List Nat}, acc.length < dl →
      px_bits flags payload byte_info dl bits pos acc = .ok (done, pos', r') →
      (done = true → dl ≤ r'.length ∧ r'.length ≤ dl + 17) ∧
      (done = false → r'.length < dl) := by
  intro bits
  induction bits with
  | nil =>
    intro pos acc done pos' r' hacc h
    unfold px_bits at h
    simp only [POut.ok.injEq, Prod.mk.injEq] at h
    obtain ⟨h1, h2, h3⟩ := h
    subst h1; subst h2; subst h3
    exact ⟨by simp, fun _ => hacc⟩
  | cons b rest ih =>
    intro pos acc done pos' r' hacc h
    unfold px_bits at h
    split at h
    · exact absurd h (by simp)
    · rename_i tb hgb
      split at h
      · exact absurd h (by simp)
      · exact absurd h (by simp)
      · rename_i v pos1 r1 hstep
        obtain ⟨-, hl1, hl2⟩ := px_step_ok hstep
        split at h
        · rename_i hge
          simp only [POut.ok.injEq, Prod.mk.injEq] at h
          obtain ⟨h1, h2, h3⟩ := h
          subst h1; subst h2; subst h3
          exact ⟨fun _ => ⟨hge, by omega⟩, by simp⟩
        · rename_i hlt
          exact ih (by omega) h

theorem px_bits_zero_dl {flags : ControlFlags} {payload : List Nat} {byte_info : Nat}
    {b : Nat} {rest : List Nat} {pos : Nat} {done : Bool} {pos' : Nat} {r' : List Nat}
    (h : px_bits flags payload byte_info 0 (b :: rest) pos [] = .ok (done, pos', r')) :
    done = true ∧ r'.length ≤ 2 := by
  unfold px_bits at h
  split at h
  · exact absurd h (by simp)
  · rename_i tb hgb
    split at h
    · exact absurd h (by simp)
    · exact absurd h (by simp)
    · rename_i v pos1 r1 hstep
      have hr1 := px_step_empty hstep
      rw [if_pos (by omega)] at h
      simp only [POut.ok.injEq, Prod.mk.injEq] at h
      obtain ⟨h1, h2, h3⟩ := h
      subst h1; subst h2; subst h3
      exact ⟨rfl, hr1⟩

theorem px_loop_bound {flags : ControlFlags} {payload : List Nat} {dl : Nat} :
    ∀ {fuel pos : Nat} {acc : List Nat} {pos' : Nat} {r' : List Nat},
      acc.length < dl →
      px_loop flags payload dl fuel pos acc = .ok (pos', r') →
      dl ≤ r'.length ∧ r'.length ≤ dl + 17 := by
  intro fuel
  induction fuel with
  | zero =>
    intro pos acc pos' r' hacc h
    exact absurd h (by unfold px_loop; simp)
  | succ f ih =>
    intro pos acc pos' r' hacc h
    unfold px_loop at h
    split at h
    · exact absurd h (by simp)
    · exact absurd h (by simp)
    · rename_i v byte_info pos1 hr
      split at h
      · exact absurd h (by simp)
      · exact absurd h (by simp)
      · rename_i v2 pos2 r2 hbits
        simp only [POut.ok.injEq, Prod.mk.injEq] at h
        obtain ⟨h1, h2⟩ := h
        subst h1; subst h2
        exact (px_bits_bound hacc hbits).1 rfl
      · rename_i v2 pos2 r2 hbits
        exact ih ((px_bits_bound hacc hbits).2 rfl) h

theorem px_loop_len {flags : ControlFlags} {payload : List Nat} {dl fuel pos : Nat}
    {pos' : Nat} {r' : List Nat}
    (h : px_loop flags payload dl fuel pos [] = .ok (pos', r')) :
    dl ≤ r'.length ∧ r'.length ≤ dl + 17 := by
  rcases Nat.eq_zero_or_pos dl with h0 | hpos
  · subst h0
    cases fuel with
    | zero => exact absurd h (by unfold px_loop; simp)
    | succ f =>
      unfold px_loop at h
      split at h
      · exact absurd h (by simp)
      · exact absurd h (by simp)
      · rename_i v byte_info pos1 hr
        split at h
        · exact absurd h (by simp)
        · exact absurd h (by simp)
        · rename_i v2 pos2 r2 hbits
          simp only [POut.ok.injEq, Prod.mk.injEq] at h
          obtain ⟨h1, h2⟩ := h
          subst h1; subst h2
          obtain ⟨-, hb2⟩ := px_bits_zero_dl (by simpa [bits8] using hbits)
          omega
        · rename_i v2 pos2 r2 hbits
          obtain ⟨hdone, -⟩ := px_bits_zero_dl (by simpa [bits8] using hbits)
          exact absurd hdone (by simp)
  · exact px_loop_bound (by simpa using hpos) h

theorem decompress_px_raw_len {payload : List Nat} {flags : ControlFlags}
    {dl cl hl : Nat} {r : List Nat}
    (h : decompress_px_raw payload flags dl cl hl = .ok r) :
    dl ≤ r.length ∧ r.length ≤ dl + 17 := by
  unfold decompress_px_raw at h
  split at h
  · exact absurd h (by simp)
  · exact absurd h (by simp)
  · rename_i v pos result hloop
    split at h
    · exact absurd h (by simp)
    · simp only [POut.ok.injEq] at h
      subst h
      exact px_loop_len hloop

/-! ## Claim C10: the naive encoder fails on empty input -/

/-- Claim C10: `naive_compression` applied to an empty input emits the
command byte, then the first payload read hits end-of-stream, so the call
fails with an `IOError` and never returns a container. -/
theorem naive_compression_empty_fails : naive_compression [] = .err .IOError := by rfl

/-! ## Claim C2: out-of-range back-references panic (code bug) -/

/-- Claim C2 evaluated on a failing input: a well-formed PKDPX container
whose first mode byte encodes a back-reference at absolute source index
`0 + (-4096)`.  The source executes `result.push(result[c as usize])` with
`c` negative (cast to a huge `usize`), which panics instead of returning a
typed `PXError` — the decode aborts, contradicting the no-panic contract. -/
theorem decompress_px_backref_oob_panics :
    decompress_px [80, 75, 68, 80, 88, 0, 0, 255, 255, 255, 255, 255, 255, 255, 255,
      255, 3, 0, 0, 0, 0, 0, 0] = .panic := by decide

/-! ## Claim C3: when the declared-length check happens -/

/-- Claim C3 counterexample: a PKDPX container with declared decompressed
length 2 whose payload is one literal followed by a nybble-pattern pair.
Were the declared-length check performed after every single appended byte,
decoding would stop at 2 bytes; the code checks only after the whole
bit-action, so it returns 3 bytes. -/
theorem length_check_per_bit_cex :
    decompress_px [80, 75, 68, 80, 88, 23, 0, 0, 0, 0, 0, 0, 0, 0, 0, 0, 2, 0, 0, 0,
      128, 66, 7] = .ok [66, 119, 119] ∧
    px_read_u32 [80, 75, 68, 80, 88, 23, 0, 0, 0, 0, 0, 0, 0, 0, 0, 0, 2, 0, 0, 0,
      128, 66, 7] 16 = .ok 2 ∧
    ([66, 119, 119] : List Nat).length ≠ 2 := by decide

/-! ## Claim C4: final output length versus declared length -/

/-- Claim C4 counterexample: a successful decode whose returned buffer has
3 bytes while the header declares decompressed length 2 — the final length
is not always exactly the declared length. -/
theorem decoded_length_exact_cex :
    decompress_px [80, 75, 68, 80, 88, 23, 0, 0, 0, 0, 0, 0, 0, 0, 0, 0, 2, 0, 0, 0,
      128, 1, 7] = .ok [1, 119, 119] ∧
    px_read_u32 [80, 75, 68, 80, 88, 23, 0, 0, 0, 0, 0, 0, 0, 0, 0, 0, 2, 0, 0, 0,
      128, 1, 7] 16 = .ok 2 ∧
    ([1, 119, 119] : List Nat).length ≠ 2 := by decide

/-- Claim C4 (amended): whenever `decompress_px` succeeds, the returned
buffer is at least as long as the declared decompressed length read from
the header (u32 at offset 16 for PKDPX, u16 for AT4PX) and overshoots it by
at most 17 bytes (the check runs after each bit-action, which appends at
most 18 bytes). -/
theorem decoded_length_bounds : ∀ (file r : List Nat),
    decompress_px file = .ok r →
    ∃ dl, (((file.take 5).map (· % 256) = pkdpxMagic ∧ px_read_u32 file 16 = .ok dl)
        ∨ ((file.take 5).map (· % 256) = at4pxMagic ∧ px_read_u16 file 16 = .ok dl))
      ∧ dl ≤ r.length ∧ r.length ≤ dl + 17 := by
  intro file r h
  unfold decompress_px at h
  split at h
  · exact absurd h (by simp)
  · dsimp only at h
    split at h
    · exact absurd h (by simp)
    · exact absurd h (by simp)
    · rename_i cl hcl
      split at h
      · exact absurd h (by simp)
      · split at h
        · rename_i hmagic
          split at h
          · exact absurd h (by simp)
          · exact absurd h (by simp)
          · rename_i dl hdl
            exact ⟨dl, Or.inl ⟨hmagic, hdl⟩, decompress_px_raw_len h⟩
        · split at h
          · rename_i hmagic
            split at h
            · exact absurd h (by simp)
            · exact absurd h (by simp)
            · rename_i dl hdl
              exact ⟨dl, Or.inr ⟨hmagic, hdl⟩, decompress_px_raw_len h⟩
          · exact absurd h (by simp)

/-- Witness for the amended C4: the bounds hold on a concrete successful
decode (the container of a 1-byte naive compression). -/
theorem decoded_length_bounds_witness :
    ∃ dl, (px_read_u32 [80, 75, 68, 80, 88, 22, 0, 0, 0, 0, 0, 0, 0, 0, 0, 0, 1, 0, 0,
        0, 255, 66, 170, 170, 170, 170, 170, 170, 170, 170, 170, 170] 16 = .ok dl
      ∨ px_read_u16 [80, 75, 68, 80, 88, 22, 0, 0, 0, 0, 0, 0, 0, 0, 0, 0, 1, 0, 0,
        0, 255, 66, 170, 170, 170, 170, 170, 170, 170, 170, 170, 170] 16 = .ok dl)
      ∧ dl ≤ ([66] : List Nat).length ∧ ([66] : List Nat).length ≤ dl + 17 := by
  obtain ⟨dl, hor, h1, h2⟩ := decoded_length_bounds
    [80, 75, 68, 80, 88, 22, 0, 0, 0, 0, 0, 0, 0, 0, 0, 0, 1, 0, 0, 0, 255, 66, 170,
      170, 170, 170, 170, 170, 170, 170, 170, 170] [66] (by decide)
  rcases hor with ⟨-, h⟩ | ⟨-, h⟩
  · exact ⟨dl, Or.inl h, h1, h2⟩
  · exact ⟨dl, Or.inr h, h1, h2⟩

/-! ## Claim C9: the one-byte naive container -/

/-- Claim C9 counterexample: compressing the 1-byte input `[66]` produces a
container whose `container_length` field (bytes 5-6, little-endian) is 22 —
the 20-byte header plus one command byte plus one literal — not 21 as the
claim states. -/
theorem naive_one_byte_container_cex :
    naive_compression [66] = .ok [80, 75, 68, 80, 88, 22, 0, 0, 0, 0, 0, 0, 0, 0, 0,
      0, 1, 0, 0, 0, 255, 66, 170, 170, 170, 170, 170, 170, 170, 170, 170, 170] ∧
    px_read_u16 [80, 75, 68, 80, 88, 22, 0, 0, 0, 0, 0, 0, 0, 0, 0, 0, 1, 0, 0, 0,
      255, 66, 170, 170, 170, 170, 170, 170, 170, 170, 170, 170] 5 = .ok 22 ∧
    (22 : Nat) ≠ 21 := by decide

/-! ## Claim C6: the nybble-pattern byte pair -/

/-- Claim C6 counterexample: with the upper nibble found at table index 1
and `nb_low = 0xF`, the code's wrapping 8-bit additions produce the pair
`(0x00, 0x10)`, while the claim's formula (`n0<<4 | n1` on the adjusted
nibbles) gives a different pair — the stated arithmetic does not hold at
this input. -/
theorem nybble_pattern_formula_cex :
    px_step ⟨[9, 0, 9, 9, 9, 9, 9, 9, 9]⟩ [15] false 0 [] = .ok (1, [0, 16]) ∧
    [0, 16] ≠ [(spec_nybble_pair 1 15).1, (spec_nybble_pair 1 15).2] := by decide

/-- Wherever the adjusted nibbles stay in the nibble range — every table
index and low nibble except the six wrap-around combinations — the code's
pair equals the specification formula. -/
theorem byte_to_add_matches_spec :
    ∀ i, i < 9 → ∀ v, v < 16 →
      ¬((i = 1 ∧ v = 15) ∨ (i = 3 ∧ v = 0) ∨ (i = 5 ∧ v = 0)
        ∨ (i = 6 ∧ v = 15) ∨ (i = 7 ∧ v = 15) ∨ (i = 8 ∧ v = 15)) →
      byte_to_add i v = .ok (spec_nybble_pair i v) := by
  intro i hi v hv hexc
  interval_cases i <;> interval_cases v <;>
    first
      | decide
      | exact absurd (by decide) hexc

/-- Claim C6 (amended): when the upper nibble of a mode byte is found in
the 9-entry control-flag table at index `i`, the two appended bytes follow
the claimed formula (index 0: both `nb_low<<4|nb_low`; otherwise four
copies of `nb_low` with the pre-adjustment for indices 1 and 5 and one
per-position adjustment, the result pair `(n0<<4|n1, n2<<4|n3)`), except at
the six combinations where an adjusted nibble leaves the range 0..15 —
(i,nb_low) in {(1,0xF), (3,0), (5,0), (6,0xF), (7,0xF), (8,0xF)} — where
the code's wrapping 8-bit additions differ from the formula; in particular
index 0 with nb_low=5 gives (0x55, 0x55) and index 1 with nb_low=5 gives
(0x56, 0x66). -/
theorem nybble_pattern_formula :
    (∀ (flags : ControlFlags) (payload : List Nat) (pos : Nat) (result : List Nat)
      (tb i : Nat),
      payload[pos]? = some tb →
      ControlFlags.find flags ((tb % 256) >>> 4) = some i →
      flags.value.length = 9 →
      ¬((i = 1 ∧ tb % 16 = 15) ∨ (i = 3 ∧ tb % 16 = 0) ∨ (i = 5 ∧ tb % 16 = 0)
        ∨ (i = 6 ∧ tb % 16 = 15) ∨ (i = 7 ∧ tb % 16 = 15) ∨ (i = 8 ∧ tb % 16 = 15)) →
      px_step flags payload false pos result =
        .ok (pos + 1, result ++ [(spec_nybble_pair i (tb % 16)).1,
          (spec_nybble_pair i (tb % 16)).2]))
    ∧ byte_to_add 0 5 = .ok (85, 85) ∧ byte_to_add 1 5 = .ok (86, 102) := by
  refine ⟨?_, by decide, by decide⟩
  intro flags payload pos result tb i hget hfind hl9 hexc
  have hi : i < 9 := hl9 ▸ findAux_lt_length hfind
  have hnb : tb % 256 % 16 = tb % 16 := Nat.mod_mod_of_dvd tb (by norm_num)
  unfold px_step
  rw [px_read_u8_of_getElem hget]
  dsimp only
  rw [if_neg (by simp), hfind]
  dsimp only
  unfold px_pattern
  try rw [hnb]
  rw [byte_to_add_matches_spec i hi (tb % 16) (Nat.mod_lt tb (by omega)) hexc]

/-- Witness for the amended C6: a concrete mode byte with upper nibble
found at index 2 and low nibble 5 appends the pair from the formula. -/
theorem nybble_pattern_formula_witness :
    px_step ⟨[0, 1, 2, 3, 4, 5, 6, 7, 8]⟩ [37] false 0 [] =
      .ok (1, [(spec_nybble_pair 2 5).1, (spec_nybble_pair 2 5).2]) := by
  have := nybble_pattern_formula.1 ⟨[0, 1, 2, 3, 4, 5, 6, 7, 8]⟩ [37] 0 [] 37 2
    (by decide) (by decide) (by decide) (by decide)
  simpa using this

/-! ## Claim C8: the sniffing probe -/

theorem is_px_true_of_magic {l : List Nat}
    (h : l.take 5 = pkdpxMagic ∨ l.take 5 = at4pxMagic) : is_px l = .ok true := by
  have hlen : 5 ≤ l.length := by
    rcases h with h | h <;>
    · have := congrArg List.length h
      simp only [List.length_take] at this
      first
        | (rw [show (pkdpxMagic).length = 5 from rfl] at this; omega)
        | (rw [show (at4pxMagic).length = 5 from rfl] at this; omega)
  unfold is_px
  rw [if_neg (by omega), if_neg (by omega)]
  rcases h with h | h
  · rw [h]
    rw [if_pos (by decide)]
  · rw [h]
    rw [if_neg (by decide), if_pos (by decide)]

/-- Claim C8: `is_px` returns true for any stream whose first 5 bytes are
exactly "PKDPX" or "AT4PX" regardless of the rest; it returns `false` (not
an error) for any stream shorter than 4 bytes; and for byte streams it
returns true exactly when the stream is at least 4 bytes long and its first
5 bytes equal one of the two magics. -/
theorem is_px_spec :
    (∀ l : List Nat, l.take 5 = pkdpxMagic ∨ l.take 5 = at4pxMagic →
      is_px l = .ok true)
    ∧ (∀ l : List Nat, l.length < 4 → is_px l = .ok false)
    ∧ (∀ l : List Nat, (∀ b ∈ l, b < 256) →
        (is_px l = .ok true ↔
          4 ≤ l.length ∧ (l.take 5 = pkdpxMagic ∨ l.take 5 = at4pxMagic))) := by
  refine ⟨fun l h => is_px_true_of_magic h, fun l h => by unfold is_px; rw [if_pos h], ?_⟩
  intro l hb
  constructor
  · intro h
    unfold is_px at h
    split at h
    · exact absurd h (by simp)
    · split at h
      · exact absurd h (by simp)
      · rename_i h4 h5
        have htake : (l.take 5).map (· % 256) = l.take 5 :=
          map_mod_eq_self fun b hbm => hb b (List.mem_of_mem_take hbm)
        split at h
        · rename_i hm
          rw [htake] at hm
          exact ⟨by omega, Or.inl hm⟩
        · split at h
          · rename_i hm
            rw [htake] at hm
            exact ⟨by omega, Or.inr hm⟩
          · exact absurd h (by simp)
  · intro ⟨h4, hm⟩
    exact is_px_true_of_magic hm

/-- Witness for C8: a 5-byte PKDPX-magic stream sniffs as true, and the
biconditional holds on it. -/
theorem is_px_spec_witness :
    is_px [80, 75, 68, 80, 88] = .ok true ∧
    (is_px [80, 75, 68, 80, 88] = .ok true ↔
      4 ≤ ([80, 75, 68, 80, 88] : List Nat).length ∧
      (([80, 75, 68, 80, 88] : List Nat).take 5 = pkdpxMagic ∨
        ([80, 75, 68, 80, 88] : List Nat).take 5 = at4pxMagic)) :=
  ⟨is_px_spec.1 [80, 75, 68, 80, 88] (Or.inl (by decide)),
    is_px_spec.2.2 [80, 75, 68, 80, 88] (by decide)⟩

/-! ## Claim C3 (amended): the check is per bit, not per byte -/

/-- Claim C3 (amended): the declared-length check runs after each processed
bit of a command byte, not after each appended byte.  If the bit's action
brings the output to the declared length or beyond, the remaining bits of
the command byte are abandoned and the loop stops right there (mid-command
byte); otherwise decoding continues with the next bit.  A single bit may
append up to 18 bytes, so the loop never stops mid-copy-run. -/
theorem length_check_per_bit :
    ∀ (flags : ControlFlags) (payload : List Nat) (byte_info dl b : Nat)
      (rest : List Nat) (pos : Nat) (result : List Nat) (tb : Bool)
      (pos2 : Nat) (result2 : List Nat),
      get_bit byte_info b = some tb →
      px_step flags payload tb pos result = .ok (pos2, result2) →
      (dl ≤ result2.length →
        px_bits flags payload byte_info dl (b :: rest) pos result =
          .ok (true, pos2, result2))
      ∧ (result2.length < dl →
        px_bits flags payload byte_info dl (b :: rest) pos result =
          px_bits flags payload byte_info dl rest pos2 result2) := by
  intro flags payload byte_info dl b rest pos result tb pos2 result2 hgb hstep
  constructor
  · intro hge
    unfold px_bits
    rw [hgb]
    dsimp only
    rw [hstep]
    dsimp only
    rw [if_pos hge]
  · intro hlt
    conv_lhs => unfold px_bits
    rw [hgb]
    dsimp only
    rw [hstep]
    dsimp only
    rw [if_neg (by omega)]

/-- Witness for the amended C3: with declared length 1, the first bit of a
command byte (a literal) reaches the target and the remaining seven bits
are abandoned immediately. -/
theorem length_check_per_bit_witness :
    px_bits ⟨List.replicate 9 0⟩ [7, 8] 255 1 [0, 1, 2, 3, 4, 5, 6, 7] 0 [] =
      .ok (true, 1, [7]) :=
  ((length_check_per_bit ⟨List.replicate 9 0⟩ [7, 8] 255 1 0 [1, 2, 3, 4, 5, 6, 7]
    0 [] true 1 [7] (by decide) (by decide)).1 (by decide))

/-! ## Claim C5: the final container-length check -/

/-- Claim C5: once the decode loop has finished with final payload position
`pos` and a fully populated buffer, `decompress_px_raw` returns the buffer
exactly when `container_lenght = pos + header_lenght`, and on mismatch it
fails with `InvalidDecompressedLength`; `decompress_px` invokes the raw
decoder with header length 20 for PKDPX and 18 for AT4PX. -/
theorem container_length_final_check :
    (∀ (payload : List Nat) (flags : ControlFlags) (dl cl hl pos : Nat)
      (result : List Nat),
      px_loop flags payload dl (payload.length + 1) 0 [] = .ok (pos, result) →
      ((decompress_px_raw payload flags dl cl hl = .ok result ↔ cl = pos + hl)
        ∧ (cl ≠ pos + hl →
          decompress_px_raw payload flags dl cl hl = .err .InvalidDecompressedLength)))
    ∧ (∀ (file : List Nat) (cl dl : Nat),
        16 ≤ file.length →
        px_read_u16 file 5 = .ok cl →
        (((file.take 5).map (· % 256) = pkdpxMagic → px_read_u32 file 16 = .ok dl →
          decompress_px file =
            decompress_px_raw (file.drop 20) ⟨((file.drop 7).take 9).map (· % 256)⟩
              dl cl 20)
        ∧ ((file.take 5).map (· % 256) = at4pxMagic → px_read_u16 file 16 = .ok dl →
          decompress_px file =
            decompress_px_raw (file.drop 18) ⟨((file.drop 7).take 9).map (· % 256)⟩
              dl cl 18))) := by
  constructor
  · intro payload flags dl cl hl pos result hloop
    unfold decompress_px_raw
    rw [hloop]
    dsimp only
    by_cases hc : cl = pos + hl
    · rw [if_neg (fun hne => hne hc)]
      exact ⟨⟨fun _ => hc, fun _ => rfl⟩, fun hne => absurd hc hne⟩
    · rw [if_pos hc]
      exact ⟨⟨fun h => absurd h (by simp), fun he => absurd he hc⟩, fun _ => rfl⟩
  · intro file cl dl h16 hcl
    constructor
    · intro hm hdl
      unfold decompress_px
      rw [if_neg (by omega)]
      try dsimp only
      rw [hcl]
      try dsimp only
      rw [if_neg (by omega)]
      try dsimp only
      rw [if_pos hm, hdl]
    · intro hm hdl
      unfold decompress_px
      rw [if_neg (by omega)]
      try dsimp only
      rw [hcl]
      try dsimp only
      rw [if_neg (by omega)]
      try dsimp only
      rw [if_neg (fun hp => by rw [hp] at hm; exact absurd hm (by decide)), if_pos hm,
        hdl]

/-- Witness for C5: on a concrete finished loop (one command byte, one
literal), the raw decoder succeeds exactly because `22 = 2 + 20`. -/
theorem container_length_final_check_witness :
    decompress_px_raw [255, 66] ⟨List.replicate 9 0⟩ 1 22 20 = .ok [66] :=
  ((container_length_final_check.1 [255, 66] ⟨List.replicate 9 0⟩ 1 22 20 2 [66]
    (by decide)).1).mpr (by decide)

/-! ## Claim C7: the LZ back-reference copy -/

/-- Claim C7: when the upper nibble of a mode byte has no match in the
control-flag table, one extra byte is read and the decoder copies
`nb_high + 3` bytes (always in [3, 18]) one at a time, starting at the
absolute source index `result.length + (-4096 + nb_low*256 + new_byte)`,
whose relative offset always lies in [-4096, -1] — strictly before the
current write position; each copied byte is appended to the growing output,
so overlapping source and destination reproduce repeating patterns (a byte
written earlier in the same copy run can be read later in that run). -/
theorem backref_copy_spec :
    ∀ (flags : ControlFlags) (payload : List Nat) (pos : Nat) (result : List Nat)
      (tb nb : Nat),
      px_read_u8 payload pos = .ok (tb, pos + 1) →
      ControlFlags.find flags (tb >>> 4) = none →
      px_read_u8 payload (pos + 1) = .ok (nb, pos + 2) →
      (-4096 ≤ -4096 + ((tb % 16 * 256 + nb : Nat) : Int)
        ∧ -4096 + ((tb % 16 * 256 + nb : Nat) : Int) ≤ -1)
      ∧ (3 ≤ tb >>> 4 + 3 ∧ tb >>> 4 + 3 ≤ 18)
      ∧ (0 ≤ -4096 + ((tb % 16 * 256 + nb : Nat) : Int) + (result.length : Int) →
          ∃ (src : Nat) (r' : List Nat),
            (src : Int) =
              -4096 + ((tb % 16 * 256 + nb : Nat) : Int) + (result.length : Int)
            ∧ src < result.length
            ∧ px_step flags payload false pos result = .ok (pos + 2, r')
            ∧ r'.length = result.length + (tb >>> 4 + 3)
            ∧ r'.take result.length = result
            ∧ ∀ j, j < tb >>> 4 + 3 → r'[result.length + j]? = r'[src + j]?) := by
  intro flags payload pos result tb nb hr1 hfind hr2
  obtain ⟨-, -, -, htb⟩ := px_read_u8_ok hr1
  obtain ⟨-, -, -, hnb⟩ := px_read_u8_ok hr2
  have hlow : tb % 16 ≤ 15 := by omega
  have hsum : (tb % 16 * 256 + nb : Nat) ≤ 4095 := by omega
  have hhigh := shiftRight4_le htb
  refine ⟨⟨by omega, by omega⟩, ⟨by omega, by omega⟩, ?_⟩
  intro hoffpos
  set offr : Int := -4096 + ((tb % 16 * 256 + nb : Nat) : Int) with hoffr
  set off : Int := offr + (result.length : Int) with hoff
  have hofflt : off < (result.length : Int) := by
    rw [hoff]
    have : offr ≤ -1 := by rw [hoffr]; omega
    omega
  have htoNat : off.toNat < result.length := by omega
  obtain ⟨r', hcp, hlen, htake, hread⟩ :=
    @copy_from_past_ok (tb >>> 4 + 3) result off hoffpos htoNat
  refine ⟨off.toNat, r', by omega, htoNat, ?_, hlen, htake,
    fun j hj => (hread j hj).symm⟩
  unfold px_step
  rw [hr1]
  dsimp only
  rw [if_neg (by simp), hfind]
  unfold px_backref
  rw [hr2]
  dsimp only
  rw [hcp]

/-- Witness for C7: a concrete overlapping back-reference — offset -1 into
a 5-byte buffer, copy length 3 — succeeds and extends the buffer to 8
bytes, reading a byte written within the same run. -/
theorem backref_copy_spec_witness :
    ∃ (src : Nat) (r' : List Nat),
      px_step ⟨List.replicate 9 9⟩ [15, 255] false 0 [10, 20, 30, 40, 50] =
        .ok (2, r') ∧ src < 5 ∧ r'.length = 8 := by
  obtain ⟨src, r', heq, hlt, hstep, hlen, -, -⟩ :=
    (backref_copy_spec ⟨List.replicate 9 9⟩ [15, 255] 0 [10, 20, 30, 40, 50] 15 255
      (by decide) (by decide) (by decide)).2.2 (by decide)
  exact ⟨src, r', hstep, by simpa using hlt, by simpa using hlen⟩

/-! ## The all-literal payload produced by the naive encoder -/

theorem getElem?_of_drop_cons {l : List Nat} {pos a : Nat} {t : List Nat}
    (h : l.drop pos = a :: t) : l[pos]? = some a := by
  have := congrArg (fun m => m[0]?) h
  simpa [List.getElem?_drop] using this

theorem drop_of_drop_append {l u v : List Nat} {pos : Nat}
    (h : l.drop pos = u ++ v) : l.drop (pos + u.length) = v := by
  rw [← List.drop_drop, h, List.drop_left]

theorem drop_succ_of_drop_cons {l : List Nat} {pos a : Nat} {t : List Nat}
    (h : l.drop pos = a :: t) : l.drop (pos + 1) = t :=
  @drop_of_drop_append l [a] t pos (by simpa using h)

theorem bytesOf_length (l : List Nat) : (bytesOf l).length = l.length := by
  simp [bytesOf]

theorem bytesOf_lt {l : List Nat} : ∀ x ∈ bytesOf l, x < 256 := by
  intro x hx
  simp only [bytesOf, List.mem_map] at hx
  obtain ⟨y, -, rfl⟩ := hx
  omega

theorem bytesOf_append (u v : List Nat) : bytesOf (u ++ v) = bytesOf u ++ bytesOf v := by
  simp [bytesOf]

theorem interleave_nil (n : Nat) : interleave n [] = [] := rfl

theorem interleave_cons (n b : Nat) (rest : List Nat) :
    interleave n (b :: rest) =
      (if n % 8 = 0 then [255] else []) ++ b % 256 :: interleave (n + 1) rest := rfl

theorem interleave_append : ∀ (u : List Nat) (n : Nat) (v : List Nat),
    interleave n (u ++ v) = interleave n u ++ interleave (n + u.length) v := by
  intro u
  induction u with
  | nil => intro n v; simp [interleave_nil]
  | cons a t ih =>
    intro n v
    rw [List.cons_append, interleave_cons, interleave_cons, ih (n + 1) v]
    simp only [List.length_cons, List.cons_append, List.append_assoc]
    have harith : n + 1 + t.length = n + (t.length + 1) := by omega
    rw [harith]

theorem interleave_add_eight : ∀ (r : List Nat) (n : Nat),
    interleave (n + 8) r = interleave n r := by
  intro r
  induction r with
  | nil => intro n; rfl
  | cons a t ih =>
    intro n
    rw [interleave_cons, interleave_cons, Nat.add_mod_right]
    have harith : n + 8 + 1 = n + 1 + 8 := by omega
    rw [harith, ih (n + 1)]

theorem interleave_literals : ∀ (t : List Nat) (n : Nat),
    (∀ j, j < t.length → (n + j) % 8 ≠ 0) → interleave n t = bytesOf t := by
  intro t
  induction t with
  | nil => intro n _; rfl
  | cons a s ih =>
    intro n h
    rw [interleave_cons]
    rw [if_neg (by simpa using h 0 (by simp))]
    rw [ih (n + 1) (fun j hj => by
      have := h (j + 1) (by simpa using Nat.succ_lt_succ hj)
      omega)]
    rfl

theorem interleave_chunk {r : List Nat} (h : r ≠ []) :
    interleave 0 r = 255 :: (bytesOf (r.take 8) ++ interleave 0 (r.drop 8)) := by
  obtain ⟨a, t, rfl⟩ : ∃ a t, r = a :: t := by
    cases r with
    | nil => exact absurd rfl h
    | cons a t => exact ⟨a, t, rfl⟩
  rw [interleave_cons, if_pos (by decide)]
  have hsplit : t = t.take 7 ++ t.drop 7 := (List.take_append_drop 7 t).symm
  have h1 : interleave 1 t =
      bytesOf (t.take 7) ++ interleave (1 + (t.take 7).length) (t.drop 7) := by
    conv_lhs => rw [hsplit]
    rw [interleave_append]
    rw [interleave_literals (t.take 7) 1 (fun j hj => by
      simp only [List.length_take] at hj
      omega)]
  rcases le_or_lt t.length 7 with hle | hgt
  · rw [h1, List.drop_eq_nil_of_le hle, interleave_nil, List.append_nil]
    rw [List.take_of_length_le hle, List.take_of_length_le (by simp; omega)]
    rw [List.drop_eq_nil_of_le (by simp; omega), interleave_nil]
    simp [bytesOf]
  · have hlen7 : (t.take 7).length = 7 := by simp; omega
    rw [h1, hlen7]
    have h8 : (1 + 7) = 0 + 8 := by omega
    rw [h8, interleave_add_eight]
    have htake : (a :: t).take 8 = a :: t.take 7 := by
      simp [List.take_succ_cons]
    have hdrop : (a :: t).drop 8 = t.drop 7 := by
      simp [List.drop_succ_cons]
    rw [htake, hdrop]
    simp [bytesOf]

theorem interleave_length_ge : ∀ (r : List Nat) (n : Nat),
    r.length ≤ (interleave n r).length := by
  intro r
  induction r with
  | nil => intro n; simp [interleave_nil]
  | cons a t ih =>
    intro n
    rw [interleave_cons]
    have := ih (n + 1)
    by_cases hn : n % 8 = 0 <;> simp [hn] <;> omega

theorem naive_loop_eq : ∀ (r : List Nat), r ≠ [] → ∀ (n : Nat) (acc : List Nat),
    naive_loop n r acc = .ok (acc ++ interleave n r) := by
  intro r
  induction r with
  | nil => intro h; exact absurd rfl h
  | cons b rest ih =>
    intro _ n acc
    unfold naive_loop
    dsimp only
    rw [interleave_cons]
    by_cases hr : rest = []
    · subst hr
      rw [if_pos rfl, interleave_nil]
      by_cases hn : n % 8 = 0 <;> simp [hn]
    · rw [if_neg hr, ih hr (n + 1)]
      by_cases hn : n % 8 = 0 <;> simp [hn]

/-! ## Decoding an all-literal payload -/

theorem px_step_literal {flags : ControlFlags} {payload : List Nat} {pos x : Nat}
    {acc : List Nat} (hx : payload[pos]? = some x) (hlt : x < 256) :
    px_step flags payload true pos acc = .ok (pos + 1, acc ++ [x]) := by
  unfold px_step
  rw [px_read_u8_of_getElem hx]
  dsimp only
  rw [if_pos rfl, Nat.mod_eq_of_lt hlt]

theorem px_bits_literal_break (flags : ControlFlags) (payload : List Nat) (dl : Nat) :
    ∀ (lits bits : List Nat) (pos : Nat) (acc rest : List Nat),
      payload.drop pos = lits ++ rest →
      lits ≠ [] → lits.length ≤ bits.length →
      (∀ i ∈ bits, i < 8) →
      (∀ x ∈ lits, x < 256) →
      acc.length + lits.length = dl →
      px_bits flags payload 255 dl bits pos acc =
        .ok (true, pos + lits.length, acc ++ lits) := by
  intro lits
  induction lits with
  | nil => intro bits pos acc rest _ hne; exact absurd rfl hne
  | cons x l' ih =>
    intro bits pos acc rest hdrop _ hlen hbits hlt hdl
    have hdl' : acc.length + l'.length + 1 = dl := by
      simp only [List.length_cons] at hdl
      omega
    cases bits with
    | nil => simp at hlen
    | cons b bits' =>
      have hlen' : l'.length ≤ bits'.length := by
        simp only [List.length_cons] at hlen
        omega
      have hx : payload[pos]? = some x := getElem?_of_drop_cons (by simpa using hdrop)
      unfold px_bits
      rw [get_bit_255 (hbits b (by simp))]
      dsimp only
      rw [px_step_literal hx (hlt x (by simp))]
      dsimp only
      by_cases hl' : l' = []
      · subst hl'
        rw [if_pos (by simp only [List.length_append, List.length_cons,
          List.length_nil] at hdl' ⊢; omega)]
        simp
      · rw [if_neg (by
          simp only [List.length_append, List.length_cons, List.length_nil]
          have : 0 < l'.length := List.length_pos.mpr hl'
          omega)]
        have hdrop' : payload.drop (pos + 1) = l' ++ rest :=
          drop_succ_of_drop_cons (by simpa using hdrop)
        have hrec := ih bits' (pos + 1) (acc ++ [x]) rest hdrop' hl' hlen'
          (fun i hi => hbits i (by simp [hi]))
          (fun y hy => hlt y (by simp [hy]))
          (by simp only [List.length_append, List.length_cons, List.length_nil]; omega)
        rw [hrec]
        simp only [List.append_assoc, List.singleton_append, List.length_cons,
          POut.ok.injEq, Prod.mk.injEq, and_true, true_and]
        omega

theorem px_bits_literal_cont (flags : ControlFlags) (payload : List Nat) (dl : Nat) :
    ∀ (lits bits : List Nat) (pos : Nat) (acc rest : List Nat),
      payload.drop pos = lits ++ rest →
      lits.length = bits.length →
      (∀ i ∈ bits, i < 8) →
      (∀ x ∈ lits, x < 256) →
      acc.length + lits.length < dl →
      px_bits flags payload 255 dl bits pos acc =
        .ok (false, pos + lits.length, acc ++ lits) := by
  intro lits
  induction lits with
  | nil =>
    intro bits pos acc rest _ hlen _ _ _
    cases bits with
    | cons b bits' => simp at hlen
    | nil =>
      unfold px_bits
      simp
  | cons x l' ih =>
    intro bits pos acc rest hdrop hlen hbits hlt hdl
    have hdl' : acc.length + l'.length + 1 < dl := by
      simp only [List.length_cons] at hdl
      omega
    cases bits with
    | nil => simp at hlen
    | cons b bits' =>
      have hlen' : l'.length = bits'.length := by
        simp only [List.length_cons] at hlen
        omega
      have hx : payload[pos]? = some x := getElem?_of_drop_cons (by simpa using hdrop)
      unfold px_bits
      rw [get_bit_255 (hbits b (by simp))]
      dsimp only
      rw [px_step_literal hx (hlt x (by simp))]
      dsimp only
      rw [if_neg (by
        simp only [List.length_append, List.length_cons, List.length_nil]
        omega)]
      have hdrop' : payload.drop (pos + 1) = l' ++ rest :=
        drop_succ_of_drop_cons (by simpa using hdrop)
      have hrec := ih bits' (pos + 1) (acc ++ [x]) rest hdrop' hlen'
        (fun i hi => hbits i (by simp [hi]))
        (fun y hy => hlt y (by simp [hy]))
        (by simp only [List.length_append, List.length_cons, List.length_nil]; omega)
      rw [hrec]
      simp only [List.append_assoc, List.singleton_append, List.length_cons,
        POut.ok.injEq, Prod.mk.injEq, and_true, true_and]
      omega

theorem px_loop_literal (flags : ControlFlags) (payload : List Nat) (dl : Nat) :
    ∀ (fuel : Nat) (r : List Nat) (pos : Nat) (acc rest : List Nat),
      payload.drop pos = interleave 0 r ++ rest →
      r ≠ [] →
      acc.length + r.length = dl →
      r.length ≤ fuel →
      px_loop flags payload dl fuel pos acc =
        .ok (pos + (interleave 0 r).length, acc ++ bytesOf r) := by
  intro fuel
  induction fuel with
  | zero =>
    intro r pos acc rest _ hne _ hfuel
    cases r with
    | nil => exact absurd rfl hne
    | cons a t => simp at hfuel
  | succ f ih =>
    intro r pos acc rest hdrop hne hdl hfuel
    have hchunk := interleave_chunk hne
    rw [hchunk] at hdrop
    have h255 : payload[pos]? = some 255 := getElem?_of_drop_cons (by simpa using hdrop)
    have hdrop1 : payload.drop (pos + 1) =
        bytesOf (r.take 8) ++ (interleave 0 (r.drop 8) ++ rest) :=
      by simpa [List.append_assoc] using drop_succ_of_drop_cons (by simpa using hdrop)
    unfold px_loop
    rw [px_read_u8_of_getElem h255]
    dsimp only
    have h255mod : (255 : Nat) % 256 = 255 := by norm_num
    rw [h255mod]
    rcases le_or_lt r.length 8 with hle | hgt
    · -- final chunk: break out of the loop
      rw [List.take_of_length_le hle] at hdrop1
      have hbits := px_bits_literal_break flags payload dl (bytesOf r) bits8 (pos + 1) acc
        (interleave 0 (r.drop 8) ++ rest) hdrop1
        (by cases r with | nil => exact absurd rfl hne | cons a t => simp [bytesOf])
        (by rw [bytesOf_length]; simp [bits8]; omega)
        (by decide)
        bytesOf_lt
        (by rw [bytesOf_length]; omega)
      rw [hbits]
      dsimp only
      have hlen : (interleave 0 r).length = 1 + r.length := by
        rw [hchunk, List.take_of_length_le hle, List.drop_eq_nil_of_le hle,
          interleave_nil]
        simp [bytesOf_length]
        omega
      have harith : pos + 1 + (bytesOf r).length = pos + (interleave 0 r).length := by
        rw [bytesOf_length, hlen]
        omega
      rw [harith]
    · -- full chunk of 8 literals, then continue
      have hlen8 : (r.take 8).length = 8 := by simp; omega
      have hbits := px_bits_literal_cont flags payload dl (bytesOf (r.take 8)) bits8 (pos + 1) acc
        (interleave 0 (r.drop 8) ++ rest) hdrop1
        (by rw [bytesOf_length, hlen8]; rfl)
        (by decide)
        bytesOf_lt
        (by rw [bytesOf_length, hlen8]; omega)
      rw [hbits]
      dsimp only
      have hdrop9 : payload.drop (pos + 1 + (bytesOf (r.take 8)).length) =
          interleave 0 (r.drop 8) ++ rest := drop_of_drop_append hdrop1
      rw [bytesOf_length, hlen8] at hdrop9
      have hd8ne : r.drop 8 ≠ [] := by
        intro hnil
        have hh : r.length - 8 = 0 := by
          have := congrArg List.length hnil
          simpa using this
        omega
      have hrec := ih (r.drop 8) (pos + 1 + 8) (acc ++ bytesOf (r.take 8)) rest hdrop9
        hd8ne
        (by simp only [List.length_append, bytesOf_length, hlen8, List.length_drop]
            omega)
        (by simp only [List.length_drop]; omega)
      rw [bytesOf_length, hlen8, hrec]
      have hlen : (interleave 0 r).length = 1 + 8 + (interleave 0 (r.drop 8)).length := by
        rw [hchunk]
        simp [bytesOf_length, hlen8]
        omega
      have hbytes : bytesOf (r.take 8) ++ bytesOf (r.drop 8) = bytesOf r := by
        rw [← bytesOf_append, List.take_append_drop]
      have harith : pos + 1 + 8 + (interleave 0 (r.drop 8)).length =
          pos + (interleave 0 r).length := by
        rw [hlen]
        omega
      rw [harith, List.append_assoc, hbytes]

/-! ## Shape of a successful naive compression -/

theorem naive_compression_ok_shape : ∀ (B c : List Nat), naive_compression B = .ok c →
    B ≠ [] ∧
    ∃ raw pad,
      naive_loop 0 B (pkdpxMagic ++ u16le 0 ++ List.replicate 9 0 ++ u32le B.length) =
        .ok raw ∧
      raw = (pkdpxMagic ++ u16le 0 ++ List.replicate 9 0 ++ u32le B.length) ++
        interleave 0 B ∧
      pad = List.replicate ((16 - raw.length % 16) % 16) 170 ∧
      raw.length ≤ 65535 ∧
      raw.length = 20 + (interleave 0 B).length ∧
      c = 80 :: 75 :: 68 :: 80 :: 88 :: raw.length % 256 :: raw.length / 256 % 256 ::
        (0 :: 0 :: 0 :: 0 :: 0 :: 0 :: 0 :: 0 :: 0 ::
         (B.length % 256 :: B.length / 256 % 256 :: B.length / 65536 % 256 ::
          B.length / 16777216 % 256 :: (interleave 0 B ++ pad))) := by
  intro B c h
  unfold naive_compression at h
  dsimp only at h
  by_cases hBnil : B = []
  · subst hBnil
    rw [show naive_loop 0 []
      (pkdpxMagic ++ u16le 0 ++ List.replicate 9 0 ++ u32le ([] : List Nat).length) =
      .err .IOError from rfl] at h
    exact absurd h (by simp)
  · rw [naive_loop_eq B hBnil 0] at h
    dsimp only at h
    split at h
    · exact absurd h (by simp)
    · rename_i h65
      simp only [POut.ok.injEq] at h
      refine ⟨hBnil, _, _, naive_loop_eq B hBnil 0 _, rfl, rfl, by omega, ?_, ?_⟩
      · simp [pkdpxMagic, u16le, u32le, List.length_append]
        omega
      · rw [← h]
        rfl

/-! ## Claim C1: the naive round-trip -/

/-- Claim C1: for every byte sequence on which the naive encoder produces a
container, decompressing that container returns exactly the original
sequence. -/
theorem naive_roundtrip : ∀ (B c : List Nat), (∀ x ∈ B, x < 256) →
    naive_compression B = .ok c → decompress_px c = .ok B := by
  intro B c hB h
  obtain ⟨hBnil, raw, pad, -, hraweq, hpadeq, h65, hlenraw, hccons⟩ :=
    naive_compression_ok_shape B c h
  have hBle : B.length ≤ (interleave 0 B).length := interleave_length_ge B 0
  have hclen : c.length = 20 + ((interleave 0 B).length + pad.length) := by
    rw [hccons]
    simp [List.length_append]
    omega
  have hg5 : c.getD 5 0 = raw.length % 256 := by rw [hccons]; rfl
  have hg6 : c.getD 6 0 = raw.length / 256 % 256 := by rw [hccons]; rfl
  have hu16 : px_read_u16 c 5 = .ok raw.length := by
    unfold px_read_u16
    rw [if_pos (by omega), hg5, hg6]
    simp only [POut.ok.injEq]
    omega
  have hh5 : (c.take 5).map (· % 256) = pkdpxMagic := by rw [hccons]; rfl
  have hg16 : c.getD 16 0 = B.length % 256 := by rw [hccons]; rfl
  have hg17 : c.getD 17 0 = B.length / 256 % 256 := by rw [hccons]; rfl
  have hg18 : c.getD 18 0 = B.length / 65536 % 256 := by rw [hccons]; rfl
  have hg19 : c.getD 19 0 = B.length / 16777216 % 256 := by rw [hccons]; rfl
  have hu32 : px_read_u32 c 16 = .ok B.length := by
    unfold px_read_u32
    rw [if_pos (by omega), hg16, hg17, hg18, hg19]
    simp only [POut.ok.injEq]
    omega
  have hdrop20 : c.drop 20 = interleave 0 B ++ pad := by rw [hccons]; rfl
  unfold decompress_px
  rw [if_neg (by omega)]
  try dsimp only
  rw [hu16]
  try dsimp only
  rw [if_neg (by omega)]
  try dsimp only
  rw [if_pos hh5, hu32]
  try dsimp only
  unfold decompress_px_raw
  rw [hdrop20]
  have hloop := px_loop_literal (⟨((c.drop 7).take 9).map (· % 256)⟩ : ControlFlags)
    (interleave 0 B ++ pad) B.length ((interleave 0 B ++ pad).length + 1) B 0 [] pad
    (by simp) hBnil (by simp) (by simp only [List.length_append]; omega)
  rw [hloop]
  try dsimp only
  rw [if_neg (by omega)]
  rw [List.nil_append, map_mod_eq_self hB]

/-- Witness for C1: the concrete container of the 3-byte input `[1, 2, 3]`
decompresses back to `[1, 2, 3]`. -/
theorem naive_roundtrip_witness :
    decompress_px [80, 75, 68, 80, 88, 24, 0, 0, 0, 0, 0, 0, 0, 0, 0, 0, 3, 0, 0, 0,
      255, 1, 2, 3, 170, 170, 170, 170, 170, 170, 170, 170] = .ok [1, 2, 3] :=
  naive_roundtrip [1, 2, 3]
    [80, 75, 68, 80, 88, 24, 0, 0, 0, 0, 0, 0, 0, 0, 0, 0, 3, 0, 0, 0, 255, 1, 2, 3,
      170, 170, 170, 170, 170, 170, 170, 170] (by decide) (by decide)

/-- Claim C9 (amended): compressing a 1-byte input yields a container whose
total length (32) is a multiple of 16, whose `container_length` field
(bytes 5-6, little-endian) equals 22 — the 20-byte header plus one command
byte plus one literal byte — and whose trailing bytes beyond the field are
all 0xAA; in general the field is computed from the length before padding
and patched into bytes 5 and 6. -/
theorem naive_container_length_field :
    (∀ b : Nat, ∃ c : List Nat,
      naive_compression [b] = .ok c ∧
      c.length = 32 ∧ c.length % 16 = 0 ∧
      px_read_u16 c 5 = .ok 22 ∧
      (∀ i, 22 ≤ i → i < c.length → c.getD i 0 = 170))
    ∧ (∀ B c : List Nat, naive_compression B = .ok c →
        ∃ raw, naive_loop 0 B
            (pkdpxMagic ++ u16le 0 ++ List.replicate 9 0 ++ u32le B.length) =
            .ok raw ∧
          raw.length ≤ 65535 ∧
          px_read_u16 c 5 = .ok raw.length ∧
          c.length = raw.length + (16 - raw.length % 16) % 16) := by
  constructor
  · intro b
    refine ⟨80 :: 75 :: 68 :: 80 :: 88 :: 22 :: 0 :: 0 :: 0 :: 0 :: 0 :: 0 :: 0 ::
      0 :: 0 :: 0 :: 1 :: 0 :: 0 :: 0 :: 255 :: b % 256 ::
      [170, 170, 170, 170, 170, 170, 170, 170, 170, 170], ?_, by simp, by simp,
      by norm_num [px_read_u16, List.getD], ?_⟩
    · unfold naive_compression naive_loop
      dsimp only
      norm_num [pkdpxMagic, u16le, u32le, interleave]
      rw [show List.replicate 9 (0 : Nat) = [0, 0, 0, 0, 0, 0, 0, 0, 0] from rfl,
        show List.replicate 10 (170 : Nat) =
          [170, 170, 170, 170, 170, 170, 170, 170, 170, 170] from rfl]
      rfl
    · intro i h1 h2
      have h32 : i < 32 := by simpa using h2
      interval_cases i <;> rfl
  · intro B c h
    obtain ⟨hBnil, raw, pad, hloop, hraweq, hpadeq, h65, hlenraw, hccons⟩ :=
      naive_compression_ok_shape B c h
    have hclen : c.length = 20 + ((interleave 0 B).length + pad.length) := by
      rw [hccons]
      simp [List.length_append]
      omega
    have hg5 : c.getD 5 0 = raw.length % 256 := by rw [hccons]; rfl
    have hg6 : c.getD 6 0 = raw.length / 256 % 256 := by rw [hccons]; rfl
    refine ⟨raw, hloop, h65, ?_, ?_⟩
    · unfold px_read_u16
      rw [if_pos (by omega), hg5, hg6]
      simp only [POut.ok.injEq]
      omega
    · rw [hclen, hpadeq, List.length_replicate]
      omega

/-- Witness for the amended C9: the container of the input `[0]` has a
16-multiple length, container-length field 22, and byte 22 is 0xAA. -/
theorem naive_container_length_field_witness :
    ∃ c : List Nat, naive_compression [0] = .ok c ∧ c.length % 16 = 0 ∧
      px_read_u16 c 5 = .ok 22 ∧ c.getD 22 0 = 170 := by
  obtain ⟨c, h1, h2, h3, h4, h5⟩ := naive_container_length_field.1 0
  exact ⟨c, h1, h3, h4, h5 22 (le_refl 22) (by omega)⟩
